import Mathlib

/-!
Verification development for the signed-link token system of the
Douyin/TikTok download service (`downloader-py/crypto.py` and
`downloader-py/main.py`).

Modelling conventions:
* Python `str`/`bytes` values flowing through the token codec are modelled
  as `List Nat` of byte values (< 256).  Python's `str.encode('utf-8')` /
  `bytes.decode('utf-8')` pair is the identity on this representation.
* The AES block permutation comes from the external library
  `Crypto.Cipher.AES`; it is modelled as an abstract keyed block cipher
  (`BlockCipherModel`) assumed to be a length- and byte-preserving
  inverse pair on 16-byte blocks (`goodCipher`).  CBC chaining, PKCS#7
  padding, base64 and percent-encoding are modelled concretely.
* Wall-clock reads (`time.time()`, `datetime.now()`) are passed as
  explicit parameters; the random IV drawn by `AES.new` is a parameter.
-/

/-- Byte value of the delimiter `"_*_"` used in `crypto.py` line 14. -/
def delim : List Nat := [95, 42, 95]

/-- ASCII bytes of a Lean string (used to transcribe the ASCII literals of
the Python source into the byte-list model). -/
def asciiBytes (s : String) : List Nat := s.data.map Char.toNat

/-- Little-endian decimal digits of `n` (fuel-based so that it reduces in
the kernel).  `natDigitsAux (n+1) n` always has enough fuel. -/
def natDigitsAux : Nat → Nat → List Nat
  | 0, n => [n % 10]
  | fuel + 1, n => if n < 10 then [n] else n % 10 :: natDigitsAux fuel (n / 10)

/-- Decimal representation of a natural number as ASCII bytes, the model
of Python's `f"{n}"` for a non-negative integer `n`. -/
def natToDec (n : Nat) : List Nat := (natDigitsAux n n).reverse.map (· + 48)

/-- Value of a little-endian digit list. -/
def ofDigitsLE : List Nat → Nat
  | [] => 0
  | d :: ds => d + 10 * ofDigitsLE ds

/-- Model of Python `int(s)` restricted to plain ASCII digit strings (the
only shape the codec itself produces); non-digit input yields `none`
(Python raises `ValueError`). -/
def decToNat (s : List Nat) : Option Nat :=
  if s ≠ [] ∧ s.all (fun c => 48 ≤ c ∧ c ≤ 57) then
    some (s.foldl (fun a c => a * 10 + (c - 48)) 0)
  else none

/-- Whether `d` occurs as a contiguous substring of `s`. -/
def containsSub (d : List Nat) : List Nat → Bool
  | [] => d.isEmpty
  | c :: rest => d.isPrefixOf (c :: rest) || containsSub d rest

/-- Model of Python `s.split(d)` for a non-empty separator `d`:
left-to-right scan for non-overlapping occurrences.  Fuel-based;
`splitAux d s.length s` has enough fuel. -/
def splitAux (d : List Nat) : Nat → List Nat → List (List Nat)
  | _, [] => [[]]
  | 0, s => [s]
  | fuel + 1, a :: s =>
    if d.isPrefixOf (a :: s) then
      [] :: splitAux d fuel ((a :: s).drop d.length)
    else
      match splitAux d fuel s with
      | [] => [[a]]
      | p :: ps => (a :: p) :: ps

/-- Python `s.split(d)`. -/
def pySplit (d s : List Nat) : List (List Nat) := splitAux d s.length s

/-- PKCS#7 padding (`Crypto.Util.Padding.pad` with block size `bs`). -/
def padPKCS7 (data : List Nat) (bs : Nat) : List Nat :=
  data ++ List.replicate (bs - data.length % bs) (bs - data.length % bs)

/-- PKCS#7 unpadding (`Crypto.Util.Padding.unpad`): `none` models the
`ValueError`s raised on empty input, on input not a multiple of the block
size, and on incorrect padding bytes. -/
def unpadPKCS7 (data : List Nat) (bs : Nat) : Option (List Nat) :=
  if data.length = 0 then none
  else if data.length % bs ≠ 0 then none
  else
    let padLen := data.getLast?.getD 0
    if padLen < 1 ∨ padLen > min bs data.length then none
    else if data.drop (data.length - padLen) ≠ List.replicate padLen padLen then none
    else some (data.take (data.length - padLen))

/-- Split a byte list into 16-byte blocks (fuel-based). -/
def chunksAux : Nat → List Nat → List (List Nat)
  | _, [] => []
  | 0, l => [l]
  | fuel + 1, l => l.take 16 :: chunksAux fuel (l.drop 16)

/-- 16-byte blocks of a byte list (the block view used by `AES` CBC). -/
def chunks16 (l : List Nat) : List (List Nat) := chunksAux l.length l

/-- Byte-wise XOR of two equal-length byte lists. -/
def zipXor (a b : List Nat) : List Nat := List.zipWith (fun x y => x ^^^ y) a b

/-- Abstract keyed block cipher standing for the external `AES`
primitive: `enc key` and `dec key` act on 16-byte blocks. -/
structure BlockCipherModel where
  enc : List Nat → List Nat → List Nat
  dec : List Nat → List Nat → List Nat

/-- The assumption provided by the AES library: for every key, on 16-byte
blocks of bytes, decryption inverts encryption and encryption yields a
16-byte block of bytes. -/
def goodCipher (C : BlockCipherModel) : Prop :=
  ∀ k b, b.length = 16 → (∀ x ∈ b, x < 256) →
    C.dec k (C.enc k b) = b ∧ (C.enc k b).length = 16 ∧ ∀ x ∈ C.enc k b, x < 256

/-- CBC encryption of a block list with previous-ciphertext chaining
starting from `prev` (the IV): model of `AES.new(key, MODE_CBC).encrypt`. -/
def cbcEnc (E : List Nat → List Nat) : List Nat → List (List Nat) → List (List Nat)
  | _, [] => []
  | prev, b :: bs =>
    let c := E (zipXor prev b)
    c :: cbcEnc E c bs

/-- CBC decryption with chaining from `prev` (the IV):
model of `AES.new(key, MODE_CBC, iv).decrypt`. -/
def cbcDec (D : List Nat → List Nat) : List Nat → List (List Nat) → List (List Nat)
  | _, [] => []
  | prev, c :: cs => zipXor prev (D c) :: cbcDec D c cs

/-- The trivial (identity) block cipher, a concrete instance of the
abstract AES interface used to evaluate the codec on concrete inputs. -/
def idCipher : BlockCipherModel := ⟨fun _ b => b, fun _ b => b⟩

theorem goodCipher_idCipher : goodCipher idCipher := by
  intro k b hb hlt
  exact ⟨rfl, hb, hlt⟩

/-! ### Base64 (model of `base64.b64encode` / `base64.b64decode`) -/

/-- Character of the standard base64 alphabet for a 6-bit value. -/
def b64char (n : Nat) : Nat :=
  if n < 26 then 65 + n
  else if n < 52 then 97 + (n - 26)
  else if n < 62 then 48 + (n - 52)
  else if n = 62 then 43
  else 47

/-- 6-bit value of a base64 alphabet character; `none` for characters
outside the alphabet. -/
def b64val (c : Nat) : Option Nat :=
  if 65 ≤ c ∧ c ≤ 90 then some (c - 65)
  else if 97 ≤ c ∧ c ≤ 122 then some (c - 97 + 26)
  else if 48 ≤ c ∧ c ≤ 57 then some (c - 48 + 52)
  else if c = 43 then some 62
  else if c = 47 then some 63
  else none

/-- `base64.b64encode`: byte triples to character quadruples, with `=`
(byte 61) padding. -/
def b64encode : List Nat → List Nat
  | [] => []
  | [a] => [b64char (a / 4), b64char (a % 4 * 16), 61, 61]
  | [a, b] => [b64char (a / 4), b64char (a % 4 * 16 + b / 16), b64char (b % 16 * 4), 61]
  | a :: b :: c :: rest =>
    b64char (a / 4) :: b64char (a % 4 * 16 + b / 16) ::
      b64char (b % 16 * 4 + c / 64) :: b64char (c % 64) :: b64encode rest

/-- Strict decoding of a filtered base64 character stream in groups of
four; `none` models `binascii.Error`. -/
def b64decodeGo : List Nat → Option (List Nat)
  | [] => some []
  | c1 :: c2 :: c3 :: c4 :: rest =>
    match b64val c1, b64val c2 with
    | some v1, some v2 =>
      if c3 = 61 ∧ c4 = 61 ∧ rest = [] then
        some [v1 * 4 + v2 / 16]
      else
        match b64val c3 with
        | some v3 =>
          if c4 = 61 ∧ rest = [] then
            some [v1 * 4 + v2 / 16, v2 % 16 * 16 + v3 / 4]
          else
            match b64val c4 with
            | some v4 =>
              (b64decodeGo rest).map
                (fun tl => (v1 * 4 + v2 / 16) :: (v2 % 16 * 16 + v3 / 4) ::
                  (v3 % 4 * 64 + v4) :: tl)
            | none => none
        | none => none
    | _, _ => none
  | _ => none

/-- `base64.b64decode` with its default `validate=False`: characters
outside the alphabet (and `=`) are discarded before decoding. -/
def b64decode (s : List Nat) : Option (List Nat) :=
  b64decodeGo (s.filter (fun c => (b64val c).isSome || c == 61))

/-! ### Percent-encoding (model of `urllib.parse.quote` / `unquote`) -/

/-- Characters `urllib.parse.quote` leaves untouched with its default
`safe='/'`: ASCII alphanumerics, `_ . - ~`, and `/`. -/
def quoteSafe (b : Nat) : Bool :=
  (48 ≤ b && b ≤ 57) || (65 ≤ b && b ≤ 90) || (97 ≤ b && b ≤ 122) ||
    b == 95 || b == 46 || b == 45 || b == 126 || b == 47

/-- Upper-case hexadecimal digit of a 4-bit value. -/
def hexDigit (n : Nat) : Nat := if n < 10 then 48 + n else 55 + n

/-- Value of a hexadecimal digit character (upper or lower case). -/
def hexVal (c : Nat) : Option Nat :=
  if 48 ≤ c ∧ c ≤ 57 then some (c - 48)
  else if 65 ≤ c ∧ c ≤ 70 then some (c - 55)
  else if 97 ≤ c ∧ c ≤ 102 then some (c - 87)
  else none

/-- `urllib.parse.quote` with default `safe='/'`, on bytes. -/
def pyQuote (s : List Nat) : List Nat :=
  s.flatMap fun b =>
    if quoteSafe b then [b] else [37, hexDigit (b / 16), hexDigit (b % 16)]

/-- `urllib.parse.unquote`, on bytes: `%` followed by two hex digits is
decoded; a malformed `%` sequence is kept literally (Python does not
raise here). -/
def pyUnquote : List Nat → List Nat
  | [] => []
  | c :: h1 :: h2 :: rest2 =>
    if c = 37 then
      match hexVal h1, hexVal h2 with
      | some a, some b => (a * 16 + b) :: pyUnquote rest2
      | _, _ => c :: pyUnquote (h1 :: h2 :: rest2)
    else c :: pyUnquote (h1 :: h2 :: rest2)
  | c :: rest => c :: pyUnquote rest

/-! ### The token codec (`crypto.py`) -/

/-- Key normalization of `crypto.py` lines 17-22 / 54-60: a key whose
length is not 16, 24 or 32 is PKCS#7-padded to block size 16 and the
first 32 bytes are kept (`pad(key, 16)[:32]`). -/
def normalizeKey (key : List Nat) : List Nat :=
  if key.length = 16 ∨ key.length = 24 ∨ key.length = 32 then key
  else (padPKCS7 key 16).take 32

/-- `crypto.encrypt(text, key, ttl_in_seconds)`.  `now` is the value of
`int(time.time() * 1000)` and `iv` the random 16-byte IV drawn by
`AES.new`; both are ambient effects in the Python source, passed
explicitly here.  The plaintext is `f"{timestamp}_*_{ttl_in_seconds}_*_{text}"`. -/
def encrypt (C : BlockCipherModel) (text key : List Nat) (ttl : Nat)
    (now : Nat) (iv : List Nat) : List Nat :=
  let textWithTimestamp := natToDec now ++ delim ++ natToDec ttl ++ delim ++ text
  let nkey := normalizeKey key
  let ctBytes := (cbcEnc (C.enc nkey) iv (chunks16 (padPKCS7 textWithTimestamp 16))).flatten
  pyQuote (b64encode (iv ++ ctBytes))

/-- The distinct exception sites inside the `try` block of
`crypto.decrypt` (lines 43-79).  Every one of them is re-raised by the
trailing `except Exception` as `ValueError("Decryption failed: ...")`. -/
inductive DecErr where
  | badBase64   -- `base64.b64decode` raises `binascii.Error`
  | badIV       -- `AES.new(key, MODE_CBC, iv)` rejects an IV that is not 16 bytes
  | badBlockLen -- `cipher.decrypt` rejects data not a multiple of 16 bytes
  | badPadding  -- `unpad` raises on absent/incorrect PKCS#7 padding
  | badSplit    -- unpacking `decrypted.split("_*_")` into 3 names fails
  | badInt      -- `int(...)` raises on a non-numeric timestamp/TTL field
  | expired     -- the explicit `raise ValueError("Link expired ...")`
  deriving DecidableEq, Repr

/-- Message of the Python exception each `DecErr` stands for (library
messages abbreviated; only the `expired` message is spelled by the
repository itself, at `crypto.py` line 77). -/
def DecErr.msg : DecErr → String
  | .badBase64 => "Invalid base64-encoded string"
  | .badIV => "Incorrect IV length (it must be 16 bytes long)"
  | .badBlockLen => "Data must be padded to 16 byte boundary in CBC mode"
  | .badPadding => "Padding is incorrect."
  | .badSplit => "not enough values to unpack (expected 3)"
  | .badInt => "invalid literal for int() with base 10"
  | .expired => "Link expired and cannot be decrypted."

/-- Error classes named by the specification: expiry is `EXPIRED`, every
other decode failure is `DECODE_FAILED`. -/
def DecErr.isExpiry : DecErr → Bool
  | .expired => true
  | _ => false

/-- Body of the `try` block of `crypto.decrypt(encrypted_text, key)`:
percent-decode, base64-decode, split off the 16-byte IV, normalize the
key, CBC-decrypt, unpad, split on `"_*_"` into exactly three fields,
parse timestamp and TTL, and reject when
`current_time > timestamp + ttl * 1000`.  `now` is `int(time.time() * 1000)`. -/
def decryptInner (C : BlockCipherModel) (encryptedText key : List Nat)
    (now : Nat) : Except DecErr (List Nat) :=
  let decodedText := pyUnquote encryptedText
  match b64decode decodedText with
  | none => .error .badBase64
  | some encryptedBytes =>
    let iv := encryptedBytes.take 16
    let ct := encryptedBytes.drop 16
    let nkey := normalizeKey key
    if iv.length ≠ 16 then .error .badIV
    else if ct.length % 16 ≠ 0 then .error .badBlockLen
    else
      let decryptedPadded := (cbcDec (C.dec nkey) iv (chunks16 ct)).flatten
      match unpadPKCS7 decryptedPadded 16 with
      | none => .error .badPadding
      | some decrypted =>
        match pySplit delim decrypted with
        | [timestampStr, ttlStr, originalText] =>
          match decToNat timestampStr, decToNat ttlStr with
          | some timestamp, some ttl =>
            if now > timestamp + ttl * 1000 then .error .expired
            else .ok originalText
          | _, _ => .error .badInt
        | _ => .error .badSplit

/-- `crypto.decrypt`: the `try` body wrapped by
`except Exception as e: raise ValueError(f"Decryption failed: {str(e)}")`. -/
def decrypt (C : BlockCipherModel) (encryptedText key : List Nat)
    (now : Nat) : Except String (List Nat) :=
  match decryptInner C encryptedText key now with
  | .ok t => .ok t
  | .error e => .error ("Decryption failed: " ++ e.msg)

/-! ### Decimal round-trip lemmas -/

theorem natDigitsAux_spec (fuel n : Nat) (h : n ≤ fuel) :
    natDigitsAux fuel n ≠ [] ∧ (∀ d ∈ natDigitsAux fuel n, d < 10) ∧
      ofDigitsLE (natDigitsAux fuel n) = n := by
  induction fuel generalizing n with
  | zero =>
    interval_cases n
    simp [natDigitsAux, ofDigitsLE]
  | succ fuel ih =>
    by_cases hn : n < 10
    · refine ⟨by simp [natDigitsAux, hn], ?_, by simp [natDigitsAux, hn, ofDigitsLE]⟩
      intro d hd
      simp [natDigitsAux, hn] at hd
      omega
    · have hdiv : n / 10 ≤ fuel := by omega
      obtain ⟨h1, h2, h3⟩ := ih (n / 10) hdiv
      refine ⟨by simp [natDigitsAux, hn], ?_, ?_⟩
      · intro d hd
        simp [natDigitsAux, hn] at hd
        rcases hd with hd | hd
        · omega
        · exact h2 d hd
      · simp [natDigitsAux, hn, ofDigitsLE, h3]
        omega

theorem natToDec_digits (n : Nat) : ∀ x ∈ natToDec n, 48 ≤ x ∧ x ≤ 57 := by
  intro x hx
  obtain ⟨-, h2, -⟩ := natDigitsAux_spec n n le_rfl
  simp only [natToDec, List.mem_map, List.mem_reverse] at hx
  obtain ⟨d, hd, rfl⟩ := hx
  have := h2 d hd
  omega

theorem natToDec_ne_nil (n : Nat) : natToDec n ≠ [] := by
  obtain ⟨h1, -, -⟩ := natDigitsAux_spec n n le_rfl
  simp only [natToDec]
  intro h
  simp at h
  exact h1 h

theorem foldl_dec_revmap (l : List Nat) (h : ∀ d ∈ l, d < 10) :
    ((l.map (· + 48)).reverse).foldl (fun a c => a * 10 + (c - 48)) 0 =
      ofDigitsLE l := by
  rw [List.foldl_reverse]
  induction l with
  | nil => simp [ofDigitsLE]
  | cons d ds ih =>
    simp only [List.map_cons, List.foldr_cons, ofDigitsLE]
    rw [ih (fun x hx => h x (List.mem_cons_of_mem d hx))]
    omega

theorem decToNat_natToDec (n : Nat) : decToNat (natToDec n) = some n := by
  obtain ⟨h1, h2, h3⟩ := natDigitsAux_spec n n le_rfl
  have hall : (natToDec n).all (fun c => decide (48 ≤ c ∧ c ≤ 57)) = true := by
    rw [List.all_eq_true]
    intro c hc
    exact decide_eq_true (natToDec_digits n c hc)
  have hrev : natToDec n = ((natDigitsAux n n).map (· + 48)).reverse := by
    simp [natToDec]
  rw [decToNat]
  simp only [hall, natToDec_ne_nil n, ne_eq, not_false_iff, true_and, and_true, if_pos]
  rw [hrev, foldl_dec_revmap _ h2, h3]

/-! ### `s.split("_*_")` lemmas -/

theorem splitAux_fuelIrrel (d : List Nat) (hd : d ≠ []) :
    ∀ f1 f2 s, s.length ≤ f1 → s.length ≤ f2 →
      splitAux d f1 s = splitAux d f2 s := by
  intro f1
  have hdl : 1 ≤ d.length := List.length_pos.mpr hd
  induction f1 with
  | zero =>
    intro f2 s h1 h2
    have hs : s = [] := by cases s <;> simp_all
    subst hs
    cases f2 <;> simp [splitAux]
  | succ f1 ih =>
    intro f2 s h1 h2
    cases s with
    | nil => cases f2 <;> simp [splitAux]
    | cons a s' =>
      cases f2 with
      | zero => simp at h2
      | succ f2' =>
        simp only [splitAux]
        by_cases hp : d.isPrefixOf (a :: s') = true
        · simp only [hp, if_pos]
          have hlen : ((a :: s').drop d.length).length ≤ f1 := by
            simp only [List.length_drop, List.length_cons]
            simp only [List.length_cons] at h1
            omega
          have hlen2 : ((a :: s').drop d.length).length ≤ f2' := by
            simp only [List.length_drop, List.length_cons]
            simp only [List.length_cons] at h2
            omega
          rw [ih f2' _ hlen hlen2]
        · simp only [hp, if_neg, Bool.false_eq_true, not_false_iff]
          rw [ih f2' s' (by simp at h1 ⊢; omega) (by simp at h2 ⊢; omega)]

theorem splitAux_succ (d : List Nat) (f : Nat) (a : Nat) (s : List Nat) :
    splitAux d (f + 1) (a :: s) =
      if d.isPrefixOf (a :: s) then
        [] :: splitAux d f ((a :: s).drop d.length)
      else
        match splitAux d f s with
        | [] => [[a]]
        | p :: ps => (a :: p) :: ps := rfl

theorem pySplit_cons_nomatch (c : Nat) (rest : List Nat)
    (h : ¬(delim.isPrefixOf (c :: rest) = true)) :
    pySplit delim (c :: rest) =
      match pySplit delim rest with
      | [] => [[c]]
      | p :: ps => (c :: p) :: ps := by
  show splitAux delim (c :: rest).length (c :: rest) = _
  rw [List.length_cons, splitAux_succ]
  simp only [h, if_neg, Bool.false_eq_true, not_false_iff]
  rfl

theorem pySplit_append_delim (a : List Nat) :
    ∀ s : List Nat, (∀ x ∈ a, x ≠ 95) →
      pySplit delim (a ++ delim ++ s) = a :: pySplit delim s := by
  induction a with
  | nil =>
    intro s _
    have hshape : ([] : List Nat) ++ delim ++ s = 95 :: 42 :: 95 :: s := by
      simp [delim]
    rw [hshape]
    have hpre : delim.isPrefixOf (95 :: 42 :: 95 :: s) = true := by
      simp [delim, List.isPrefixOf]
    show splitAux delim (95 :: 42 :: 95 :: s).length (95 :: 42 :: 95 :: s) = _
    have hlen : (95 :: 42 :: 95 :: s).length = (s.length + 2) + 1 := by
      simp
    rw [hlen, splitAux_succ]
    simp only [hpre, if_pos]
    have hdrop : (95 :: 42 :: 95 :: s).drop delim.length = s := by
      simp [delim]
    rw [hdrop, splitAux_fuelIrrel delim (by simp [delim]) (s.length + 2)
      s.length s (by omega) le_rfl]
    rfl
  | cons x a' ih =>
    intro s hx
    have hx95 : x ≠ 95 := hx x (List.mem_cons_self x a')
    have hshape : (x :: a') ++ delim ++ s = x :: (a' ++ delim ++ s) := by simp
    rw [hshape]
    have hpre : ¬(delim.isPrefixOf (x :: (a' ++ delim ++ s)) = true) := by
      simp only [delim, List.isPrefixOf, Bool.and_eq_true, beq_iff_eq]
      intro hcon
      exact hx95 hcon.1.symm
    rw [pySplit_cons_nomatch x _ hpre,
      ih s (fun y hy => hx y (List.mem_cons_of_mem x hy))]

theorem pySplit_no_occurrence (s : List Nat)
    (h : containsSub delim s = false) : pySplit delim s = [s] := by
  induction s with
  | nil => rfl
  | cons c rest ih =>
    simp only [containsSub, Bool.or_eq_false_iff] at h
    obtain ⟨h1, h2⟩ := h
    rw [pySplit_cons_nomatch c rest (by simp [h1]), ih h2]

theorem pySplit_plaintext (ts ttl text : List Nat)
    (hts : ∀ x ∈ ts, x ≠ 95) (httl : ∀ x ∈ ttl, x ≠ 95)
    (htext : containsSub delim text = false) :
    pySplit delim (ts ++ delim ++ (ttl ++ delim ++ text)) = [ts, ttl, text] := by
  rw [pySplit_append_delim ts _ hts, pySplit_append_delim ttl _ httl,
    pySplit_no_occurrence text htext]

/-! ### PKCS#7 padding lemmas -/

theorem padPKCS7_length (x : List Nat) :
    (padPKCS7 x 16).length = x.length + (16 - x.length % 16) := by
  simp [padPKCS7]

theorem padPKCS7_length_mod (x : List Nat) : (padPKCS7 x 16).length % 16 = 0 := by
  rw [padPKCS7_length]
  have := Nat.mod_lt x.length (show 0 < 16 by omega)
  have := Nat.div_add_mod x.length 16
  omega

theorem unpad_pad (x : List Nat) : unpadPKCS7 (padPKCS7 x 16) 16 = some x := by
  set p := 16 - x.length % 16 with hp
  have hp1 : 1 ≤ p := by
    have := Nat.mod_lt x.length (show 0 < 16 by omega)
    omega
  have hp16 : p ≤ 16 := by omega
  have hlen : (padPKCS7 x 16).length = x.length + p := padPKCS7_length x
  have hmod : (padPKCS7 x 16).length % 16 = 0 := padPKCS7_length_mod x
  have hlast : (padPKCS7 x 16).getLast?.getD 0 = p := by
    show (x ++ List.replicate p p).getLast?.getD 0 = p
    rw [List.getLast?_append_of_ne_nil x (by simp; omega)]
    cases hq : p with
    | zero => omega
    | succ q => simp [List.getLast?_replicate]
  have hdrop : (padPKCS7 x 16).drop ((padPKCS7 x 16).length - p) =
      List.replicate p p := by
    rw [hlen, Nat.add_sub_cancel]
    exact List.drop_left x _
  have htake : (padPKCS7 x 16).take ((padPKCS7 x 16).length - p) = x := by
    rw [hlen, Nat.add_sub_cancel]
    exact List.take_left x _
  unfold unpadPKCS7
  simp only [hlast]
  rw [if_neg (by omega), if_neg (by simp [hmod]), if_neg (by omega),
    if_neg (by simp [hdrop]), htake]

/-! ### Block-chunking lemmas -/

theorem chunksAux_flatten : ∀ (f : Nat) (l : List Nat),
    (chunksAux f l).flatten = l := by
  intro f
  induction f with
  | zero =>
    intro l
    cases l <;> simp [chunksAux]
  | succ f ih =>
    intro l
    cases l with
    | nil => simp [chunksAux]
    | cons a l' =>
      show (((a :: l').take 16 :: chunksAux f ((a :: l').drop 16)).flatten) = _
      simp only [List.flatten_cons, ih]
      exact List.take_append_drop 16 (a :: l')

theorem chunksAux_fuelIrrel : ∀ f1 f2 (l : List Nat), l.length ≤ f1 →
    l.length ≤ f2 → chunksAux f1 l = chunksAux f2 l := by
  intro f1
  induction f1 with
  | zero =>
    intro f2 l h1 _
    have : l = [] := by cases l <;> simp_all
    subst this
    cases f2 <;> simp [chunksAux]
  | succ f1 ih =>
    intro f2 l h1 h2
    cases l with
    | nil => cases f2 <;> simp [chunksAux]
    | cons a l' =>
      cases f2 with
      | zero => simp at h2
      | succ f2' =>
        have hh1 : l'.length + 1 ≤ f1 + 1 := by simpa using h1
        have hh2 : l'.length + 1 ≤ f2' + 1 := by simpa using h2
        show (a :: l').take 16 :: chunksAux f1 ((a :: l').drop 16) =
          (a :: l').take 16 :: chunksAux f2' ((a :: l').drop 16)
        rw [ih f2' _ (by simp only [List.length_drop, List.length_cons]; omega)
          (by simp only [List.length_drop, List.length_cons]; omega)]

theorem chunksAux_succ_cons (f a : Nat) (l : List Nat) :
    chunksAux (f + 1) (a :: l) =
      (a :: l).take 16 :: chunksAux f ((a :: l).drop 16) := rfl

theorem chunks16_append_block (b rest : List Nat) (hb : b.length = 16) :
    chunks16 (b ++ rest) = b :: chunks16 rest := by
  show chunksAux (b ++ rest).length (b ++ rest) = _
  have hlen : (b ++ rest).length = (rest.length + 15) + 1 := by
    rw [List.length_append, hb]
    omega
  rw [hlen]
  cases hbr : b ++ rest with
  | nil =>
    have := congrArg List.length hbr
    simp [hb] at this
  | cons y ys =>
    rw [chunksAux_succ_cons, ← hbr, ← hb, List.take_left, List.drop_left,
      chunksAux_fuelIrrel (rest.length + 15) rest.length rest (by omega) le_rfl]
    rfl

theorem chunks16_flatten (blocks : List (List Nat))
    (h : ∀ b ∈ blocks, b.length = 16) : chunks16 blocks.flatten = blocks := by
  induction blocks with
  | nil => rfl
  | cons b bs ih =>
    rw [List.flatten_cons, chunks16_append_block b bs.flatten
      (h b (List.mem_cons_self b bs)),
      ih (fun c hc => h c (List.mem_cons_of_mem b hc))]

theorem chunksAux_length_blocks : ∀ (f : Nat) (l : List Nat), l.length ≤ f →
    l.length % 16 = 0 → ∀ b ∈ chunksAux f l, b.length = 16 := by
  intro f
  induction f with
  | zero =>
    intro l h1 _ b hb
    have : l = [] := by cases l <;> simp_all
    subst this
    simp [chunksAux] at hb
  | succ f ih =>
    intro l h1 hmod b hb
    cases l with
    | nil => simp [chunksAux] at hb
    | cons a l' =>
      have hm : (l'.length + 1) % 16 = 0 := by simpa using hmod
      have hf : l'.length + 1 ≤ f + 1 := by simpa using h1
      have h16 : 16 ≤ l'.length + 1 := by omega
      have hb' : b ∈ (a :: l').take 16 :: chunksAux f ((a :: l').drop 16) := hb
      rcases List.mem_cons.mp hb' with rfl | hmem
      · simp only [List.length_take, List.length_cons]
        omega
      · refine ih _ ?_ ?_ b hmem
        · simp only [List.length_drop, List.length_cons]
          omega
        · simp only [List.length_drop, List.length_cons]
          omega

theorem chunks16_length_blocks (l : List Nat) (hmod : l.length % 16 = 0) :
    ∀ b ∈ chunks16 l, b.length = 16 :=
  chunksAux_length_blocks l.length l le_rfl hmod

theorem flatten_blocks_mod (blocks : List (List Nat))
    (h : ∀ b ∈ blocks, b.length = 16) : blocks.flatten.length % 16 = 0 := by
  induction blocks with
  | nil => simp
  | cons b bs ih =>
    rw [List.flatten_cons, List.length_append,
      h b (List.mem_cons_self b bs)]
    have := ih (fun c hc => h c (List.mem_cons_of_mem b hc))
    omega

/-! ### XOR and CBC lemmas -/

theorem zipXor_length (a b : List Nat) :
    (zipXor a b).length = min a.length b.length := by
  simp [zipXor]

theorem zipXor_cancel_left : ∀ (a b : List Nat), a.length = b.length →
    zipXor a (zipXor a b) = b := by
  intro a
  induction a with
  | nil =>
    intro b h
    cases b
    · rfl
    · simp at h
  | cons x xs ih =>
    intro b h
    cases b with
    | nil => simp at h
    | cons y ys =>
      show (x ^^^ (x ^^^ y)) :: zipXor xs (zipXor xs ys) = y :: ys
      rw [Nat.xor_cancel_left, ih ys (by simpa using h)]

theorem zipXor_lt : ∀ (a b : List Nat), (∀ x ∈ a, x < 256) →
    (∀ x ∈ b, x < 256) → ∀ x ∈ zipXor a b, x < 256 := by
  intro a
  induction a with
  | nil => intro b _ _ x hx; simp [zipXor] at hx
  | cons v vs ih =>
    intro b ha hb x hx
    cases b with
    | nil => simp [zipXor] at hx
    | cons w ws =>
      rcases List.mem_cons.mp hx with rfl | hmem
      · have h1 : v < 256 := ha v (List.mem_cons_self v vs)
        have h2 : w < 256 := hb w (List.mem_cons_self w ws)
        calc v ^^^ w < 2 ^ 8 := Nat.xor_lt_two_pow h1 h2
          _ = 256 := by norm_num
      · exact ih ws (fun z hz => ha z (List.mem_cons_of_mem v hz))
          (fun z hz => hb z (List.mem_cons_of_mem w hz)) x hmem

/-- Shape of a well-formed plaintext/ciphertext block list: every block
16 bytes of byte values. -/
def goodBlocks (blocks : List (List Nat)) : Prop :=
  ∀ b ∈ blocks, b.length = 16 ∧ ∀ x ∈ b, x < 256

theorem cbcEnc_goodBlocks (C : BlockCipherModel) (hC : goodCipher C)
    (k : List Nat) : ∀ (blocks : List (List Nat)) (prev : List Nat),
    prev.length = 16 → (∀ x ∈ prev, x < 256) → goodBlocks blocks →
    goodBlocks (cbcEnc (C.enc k) prev blocks) := by
  intro blocks
  induction blocks with
  | nil => intro prev _ _ _ c hc; simp [cbcEnc] at hc
  | cons b bs ih =>
    intro prev hprevlen hprevlt hgood c hc
    obtain ⟨hblen, hblt⟩ := hgood b (List.mem_cons_self b bs)
    have hxlen : (zipXor prev b).length = 16 := by
      rw [zipXor_length, hprevlen, hblen]
      simp
    have hxlt : ∀ x ∈ zipXor prev b, x < 256 := zipXor_lt prev b hprevlt hblt
    obtain ⟨-, helen, helt⟩ := hC k (zipXor prev b) hxlen hxlt
    rcases List.mem_cons.mp hc with rfl | hmem
    · exact ⟨helen, helt⟩
    · exact ih (C.enc k (zipXor prev b)) helen helt
        (fun d hd => hgood d (List.mem_cons_of_mem b hd)) c hmem

theorem cbcDec_cbcEnc (C : BlockCipherModel) (hC : goodCipher C)
    (k : List Nat) : ∀ (blocks : List (List Nat)) (prev : List Nat),
    prev.length = 16 → (∀ x ∈ prev, x < 256) → goodBlocks blocks →
    cbcDec (C.dec k) prev (cbcEnc (C.enc k) prev blocks) = blocks := by
  intro blocks
  induction blocks with
  | nil => intro prev _ _ _; rfl
  | cons b bs ih =>
    intro prev hprevlen hprevlt hgood
    obtain ⟨hblen, hblt⟩ := hgood b (List.mem_cons_self b bs)
    have hxlen : (zipXor prev b).length = 16 := by
      rw [zipXor_length, hprevlen, hblen]
      simp
    have hxlt : ∀ x ∈ zipXor prev b, x < 256 := zipXor_lt prev b hprevlt hblt
    obtain ⟨hdec, helen, helt⟩ := hC k (zipXor prev b) hxlen hxlt
    show zipXor prev (C.dec k (C.enc k (zipXor prev b))) ::
        cbcDec (C.dec k) _ (cbcEnc (C.enc k) _ bs) = b :: bs
    rw [hdec, zipXor_cancel_left prev b (by rw [hprevlen, hblen]),
      ih (C.enc k (zipXor prev b)) helen helt
        (fun d hd => hgood d (List.mem_cons_of_mem b hd))]

/-! ### Base64 round-trip lemmas -/

theorem b64val_b64char : ∀ n < 64, b64val (b64char n) = some n := by decide

theorem b64char_ne_61 : ∀ n < 64, b64char n ≠ 61 := by decide

theorem b64char_le : ∀ n < 64, b64char n ≤ 122 := by decide

theorem b64encode_bits_lt (a : Nat) (h : a < 256) :
    a / 4 < 64 ∧ a % 4 * 16 < 64 := by omega

theorem b64encode_mem (s : List Nat) (h : ∀ x ∈ s, x < 256) :
    ∀ c ∈ b64encode s, ((b64val c).isSome || c == 61) = true ∧ c < 256 := by
  induction s using b64encode.induct with
  | case1 => intro c hc; simp [b64encode] at hc
  | case2 a =>
    intro c hc
    have ha : a < 256 := h a (by simp)
    simp only [b64encode, List.mem_cons, List.mem_singleton] at hc
    have h1 : a / 4 < 64 := by omega
    have h2 : a % 4 * 16 < 64 := by omega
    rcases hc with rfl | rfl | rfl | hc
    · exact ⟨by simp [b64val_b64char _ h1], by have := b64char_le _ h1; omega⟩
    · exact ⟨by simp [b64val_b64char _ h2], by have := b64char_le _ h2; omega⟩
    · simp
    · simp at hc
      subst hc
      simp
  | case3 a b =>
    intro c hc
    have ha : a < 256 := h a (by simp)
    have hb : b < 256 := h b (by simp)
    simp only [b64encode, List.mem_cons, List.mem_singleton] at hc
    have h1 : a / 4 < 64 := by omega
    have h2 : a % 4 * 16 + b / 16 < 64 := by omega
    have h3 : b % 16 * 4 < 64 := by omega
    rcases hc with rfl | rfl | rfl | hc
    · exact ⟨by simp [b64val_b64char _ h1], by have := b64char_le _ h1; omega⟩
    · exact ⟨by simp [b64val_b64char _ h2], by have := b64char_le _ h2; omega⟩
    · exact ⟨by simp [b64val_b64char _ h3], by have := b64char_le _ h3; omega⟩
    · simp at hc
      subst hc
      simp
  | case4 a b cc rest ih =>
    intro c hc
    have ha : a < 256 := h a (by simp)
    have hb : b < 256 := h b (by simp)
    have hcc : cc < 256 := h cc (by simp)
    simp only [b64encode, List.mem_cons] at hc
    have h1 : a / 4 < 64 := by omega
    have h2 : a % 4 * 16 + b / 16 < 64 := by omega
    have h3 : b % 16 * 4 + cc / 64 < 64 := by omega
    have h4 : cc % 64 < 64 := by omega
    rcases hc with rfl | rfl | rfl | rfl | hc
    · exact ⟨by simp [b64val_b64char _ h1], by have := b64char_le _ h1; omega⟩
    · exact ⟨by simp [b64val_b64char _ h2], by have := b64char_le _ h2; omega⟩
    · exact ⟨by simp [b64val_b64char _ h3], by have := b64char_le _ h3; omega⟩
    · exact ⟨by simp [b64val_b64char _ h4], by have := b64char_le _ h4; omega⟩
    · exact ih (fun x hx => h x (by simp [hx])) c hc

theorem add_mul_div_lt (x y c : Nat) (hc : 0 < c) (hy : y < c) :
    (x * c + y) / c = x := by
  rw [Nat.add_comm, Nat.add_mul_div_right _ _ hc, Nat.div_eq_of_lt hy,
    Nat.zero_add]

theorem add_mul_mod_lt (x y c : Nat) (hy : y < c) : (x * c + y) % c = y := by
  rw [Nat.add_comm, Nat.add_mul_mod_self_right, Nat.mod_eq_of_lt hy]

theorem b64decodeGo_encode (s : List Nat) (h : ∀ x ∈ s, x < 256) :
    b64decodeGo (b64encode s) = some s := by
  induction s using b64encode.induct with
  | case1 => rfl
  | case2 a =>
    have ha : a < 256 := h a (by simp)
    have h1 : a / 4 < 64 := by omega
    have h2 : a % 4 * 16 < 64 := by omega
    have e1 : a / 4 * 4 + a % 4 * 16 / 16 = a := by
      rw [Nat.mul_div_cancel _ (show 0 < 16 by norm_num)]
      omega
    simp only [b64encode, b64decodeGo, b64val_b64char _ h1, b64val_b64char _ h2]
    rw [if_pos (by simp), e1]
  | case3 a b =>
    have ha : a < 256 := h a (by simp)
    have hb : b < 256 := h b (by simp)
    have h1 : a / 4 < 64 := by omega
    have h2 : a % 4 * 16 + b / 16 < 64 := by omega
    have h3 : b % 16 * 4 < 64 := by omega
    have e1 : a / 4 * 4 + (a % 4 * 16 + b / 16) / 16 = a := by
      rw [add_mul_div_lt _ _ 16 (by norm_num) (by omega)]
      omega
    have e2 : (a % 4 * 16 + b / 16) % 16 * 16 + b % 16 * 4 / 4 = b := by
      rw [add_mul_mod_lt _ _ 16 (by omega),
        Nat.mul_div_cancel _ (show 0 < 4 by norm_num)]
      omega
    simp only [b64encode, b64decodeGo, b64val_b64char _ h1, b64val_b64char _ h2,
      b64val_b64char _ h3]
    rw [if_neg (fun hcon => b64char_ne_61 _ h3 hcon.1), if_pos (by simp), e1, e2]
  | case4 a b cc rest ih =>
    have ha : a < 256 := h a (by simp)
    have hb : b < 256 := h b (by simp)
    have hcc : cc < 256 := h cc (by simp)
    have h1 : a / 4 < 64 := by omega
    have h2 : a % 4 * 16 + b / 16 < 64 := by omega
    have h3 : b % 16 * 4 + cc / 64 < 64 := by omega
    have h4 : cc % 64 < 64 := by omega
    have e1 : a / 4 * 4 + (a % 4 * 16 + b / 16) / 16 = a := by
      rw [add_mul_div_lt _ _ 16 (by norm_num) (by omega)]
      omega
    have e2 : (a % 4 * 16 + b / 16) % 16 * 16 + (b % 16 * 4 + cc / 64) / 4 = b := by
      rw [add_mul_mod_lt _ _ 16 (by omega), add_mul_div_lt _ _ 4 (by norm_num) (by omega)]
      omega
    have e3 : (b % 16 * 4 + cc / 64) % 4 * 64 + cc % 64 = cc := by
      rw [add_mul_mod_lt _ _ 4 (by omega)]
      omega
    simp only [b64encode, b64decodeGo, b64val_b64char _ h1, b64val_b64char _ h2,
      b64val_b64char _ h3, b64val_b64char _ h4]
    rw [if_neg (fun hcon => b64char_ne_61 _ h3 hcon.1),
      if_neg (fun hcon => b64char_ne_61 _ h4 hcon.1),
      ih (fun x hx => h x (by simp [hx])), Option.map_some', e1, e2, e3]

theorem b64decode_encode (s : List Nat) (h : ∀ x ∈ s, x < 256) :
    b64decode (b64encode s) = some s := by
  rw [b64decode, List.filter_eq_self.mpr
    (fun c hc => (b64encode_mem s h c hc).1), b64decodeGo_encode s h]

/-! ### Percent-encoding round-trip lemmas -/

theorem hexVal_hexDigit : ∀ n < 16, hexVal (hexDigit n) = some n := by decide

theorem quoteSafe_ne_37 (b : Nat) (h : quoteSafe b = true) : b ≠ 37 := by
  intro hb
  subst hb
  simp [quoteSafe] at h

theorem pyUnquote_cons_ne37 (c : Nat) (hc : c ≠ 37) (rest : List Nat) :
    pyUnquote (c :: rest) = c :: pyUnquote rest := by
  match rest with
  | [] => rfl
  | [h1] => rfl
  | h1 :: h2 :: tl => simp [pyUnquote, hc]

theorem pyUnquote_pyQuote (s : List Nat) (h : ∀ x ∈ s, x < 256) :
    pyUnquote (pyQuote s) = s := by
  induction s with
  | nil => rfl
  | cons b rest ih =>
    have hb : b < 256 := h b (List.mem_cons_self b rest)
    have ihr : pyUnquote (pyQuote rest) = rest :=
      ih (fun x hx => h x (List.mem_cons_of_mem b hx))
    show pyUnquote ((b :: rest).flatMap _) = b :: rest
    rw [List.flatMap_cons]
    by_cases hsafe : quoteSafe b = true
    · rw [if_pos hsafe]
      show pyUnquote (b :: pyQuote rest) = b :: rest
      rw [pyUnquote_cons_ne37 b (quoteSafe_ne_37 b hsafe), ihr]
    · rw [if_neg hsafe]
      show pyUnquote (37 :: hexDigit (b / 16) :: hexDigit (b % 16) :: pyQuote rest) =
        b :: rest
      have h1 : b / 16 < 16 := by omega
      have h2 : b % 16 < 16 := by omega
      simp only [pyUnquote, if_pos, hexVal_hexDigit _ h1, hexVal_hexDigit _ h2, ihr]
      congr 1
      omega

theorem pyQuote_b64_bytes (s : List Nat) (h : ∀ x ∈ s, x < 256) :
    pyUnquote (pyQuote (b64encode s)) = b64encode s :=
  pyUnquote_pyQuote (b64encode s) (fun c hc => (b64encode_mem s h c hc).2)

/-! ### Master codec round-trip -/

/-- The plaintext `f"{timestamp}_*_{ttl}_*_{text}"` built by `encrypt`. -/
def plaintextOf (now ttl : Nat) (text : List Nat) : List Nat :=
  natToDec now ++ delim ++ natToDec ttl ++ delim ++ text

theorem plaintextOf_lt (now ttl : Nat) (text : List Nat)
    (htext : ∀ x ∈ text, x < 256) : ∀ x ∈ plaintextOf now ttl text, x < 256 := by
  intro x hx
  simp only [plaintextOf, List.mem_append] at hx
  rcases hx with (((hx | hx) | hx) | hx) | hx
  · have := natToDec_digits now x hx
    omega
  · simp [delim] at hx
    omega
  · have := natToDec_digits ttl x hx
    omega
  · simp [delim] at hx
    omega
  · exact htext x hx

/-- Core lemma: decoding an `encrypt`-produced token with the same key at
wall-clock `now2` reaches the expiry check with the original timestamp and
TTL intact, and returns the original payload unless
`now2 > now + ttl * 1000`. -/
theorem decryptInner_encrypt (C : BlockCipherModel) (hC : goodCipher C)
    (text key : List Nat) (ttl now now2 : Nat) (iv : List Nat)
    (hivlen : iv.length = 16) (hivlt : ∀ x ∈ iv, x < 256)
    (htext : ∀ x ∈ text, x < 256)
    (hnodelim : containsSub delim text = false) :
    decryptInner C (encrypt C text key ttl now iv) key now2 =
      if now2 > now + ttl * 1000 then Except.error DecErr.expired
      else Except.ok text := by
  have hplain_lt := plaintextOf_lt now ttl text htext
  set plain := plaintextOf now ttl text with hplain
  set padded := padPKCS7 plain 16 with hpadded
  have hpadded_lt : ∀ x ∈ padded, x < 256 := by
    intro x hx
    simp only [hpadded, padPKCS7, List.mem_append] at hx
    rcases hx with hx | hx
    · exact hplain_lt x hx
    · rw [List.eq_of_mem_replicate hx]
      omega
  have hpadmod : padded.length % 16 = 0 := padPKCS7_length_mod plain
  have hblocks : goodBlocks (chunks16 padded) := by
    intro b hb
    refine ⟨chunks16_length_blocks _ hpadmod b hb, ?_⟩
    intro x hx
    apply hpadded_lt
    rw [← chunksAux_flatten padded.length padded]
    exact List.mem_flatten.mpr ⟨b, hb, hx⟩
  set nkey := normalizeKey key with hnkey
  set ctBlocks := cbcEnc (C.enc nkey) iv (chunks16 padded) with hctBlocks
  have hctGood : goodBlocks ctBlocks :=
    cbcEnc_goodBlocks C hC nkey (chunks16 padded) iv hivlen hivlt hblocks
  set ctBytes := ctBlocks.flatten with hctBytes
  have hctLt : ∀ x ∈ ctBytes, x < 256 := by
    intro x hx
    rw [hctBytes] at hx
    obtain ⟨b, hb, hxb⟩ := List.mem_flatten.mp hx
    exact (hctGood b hb).2 x hxb
  have hctMod : ctBytes.length % 16 = 0 :=
    flatten_blocks_mod ctBlocks (fun b hb => (hctGood b hb).1)
  have hallLt : ∀ x ∈ iv ++ ctBytes, x < 256 := by
    intro x hx
    rcases List.mem_append.mp hx with hx | hx
    · exact hivlt x hx
    · exact hctLt x hx
  have henc : encrypt C text key ttl now iv =
      pyQuote (b64encode (iv ++ ctBytes)) := rfl
  rw [henc]
  unfold decryptInner
  rw [pyUnquote_pyQuote _ (fun c hc => (b64encode_mem _ hallLt c hc).2)]
  simp only []
  rw [b64decode_encode _ hallLt]
  simp only []
  rw [show (iv ++ ctBytes).take 16 = iv by rw [← hivlen]; exact List.take_left iv _,
    show (iv ++ ctBytes).drop 16 = ctBytes by rw [← hivlen]; exact List.drop_left iv _]
  rw [if_neg (by simp [hivlen]), if_neg (by simp [hctMod])]
  rw [show chunks16 ctBytes = ctBlocks from
      chunks16_flatten ctBlocks (fun b hb => (hctGood b hb).1)]
  rw [hctBlocks, cbcDec_cbcEnc C hC nkey (chunks16 padded) iv hivlen hivlt hblocks]
  rw [show (chunks16 padded).flatten = padded from chunksAux_flatten _ _]
  rw [hpadded, unpad_pad plain]
  simp only []
  have hsplit : pySplit delim plain = [natToDec now, natToDec ttl, text] := by
    rw [hplain, show plaintextOf now ttl text =
        natToDec now ++ delim ++ (natToDec ttl ++ delim ++ text) by
      simp [plaintextOf]]
    exact pySplit_plaintext _ _ _
      (fun x hx => by have := natToDec_digits now x hx; omega)
      (fun x hx => by have := natToDec_digits ttl x hx; omega)
      hnodelim
  rw [hsplit]
  simp only [decToNat_natToDec]

/-- Wrapped round-trip: the `decrypt` boundary (with its
`except Exception` re-raise) on an `encrypt`-produced token. -/
theorem decrypt_encrypt (C : BlockCipherModel) (hC : goodCipher C)
    (text key : List Nat) (ttl now now2 : Nat) (iv : List Nat)
    (hivlen : iv.length = 16) (hivlt : ∀ x ∈ iv, x < 256)
    (htext : ∀ x ∈ text, x < 256)
    (hnodelim : containsSub delim text = false) :
    decrypt C (encrypt C text key ttl now iv) key now2 =
      if now2 > now + ttl * 1000 then
        Except.error "Decryption failed: Link expired and cannot be decrypted."
      else Except.ok text := by
  unfold decrypt
  rw [decryptInner_encrypt C hC text key ttl now now2 iv hivlen hivlt htext
    hnodelim]
  by_cases h : now2 > now + ttl * 1000
  · simp [h, DecErr.msg]
  · simp [h]

/-! ### `main.py`: link issuer -/

/-- Escaping applied by `json.dumps` to the characters that can occur in
this service's payload strings: `"` and `\` are backslash-escaped (control
and non-ASCII characters, which `json.dumps` would escape as `\uXXXX`,
are outside the byte-string payloads modelled here). -/
def jsonEscape (s : List Nat) : List Nat :=
  s.flatMap fun b => if b = 34 ∨ b = 92 then [92, b] else [b]

/-- `json.dumps({"url": url, "author": author, "type": mtype})` with the
default separators `(", ", ": ")` and insertion-ordered keys, on byte
strings. -/
def jsonDumps3 (url author mtype : List Nat) : List Nat :=
  [123, 34] ++ asciiBytes "url" ++ [34, 58, 32, 34] ++ jsonEscape url ++
    [34, 44, 32, 34] ++ asciiBytes "author" ++ [34, 58, 32, 34] ++
    jsonEscape author ++ [34, 44, 32, 34] ++ asciiBytes "type" ++
    [34, 58, 32, 34] ++ jsonEscape mtype ++ [34, 125]

/-- `generate_encrypted_download_link(url, author_nickname, media_type,
encryption_key, base_url, expiry)` from `main.py` lines 145-176: `None`
for a falsy `url`, otherwise the `/download?data=` link embedding the
encrypted JSON payload.  (The `try/except` around `encrypt` has no
failing path in the model, so the error branch returning `None` is not
reachable here.) -/
def generateEncryptedDownloadLink (C : BlockCipherModel)
    (url authorNickname mediaType encryptionKey baseUrl : List Nat)
    (expiry : Nat) (now : Nat) (iv : List Nat) : Option (List Nat) :=
  if url = [] then none
  else some (baseUrl ++ asciiBytes "/download?data=" ++
    encrypt C (jsonDumps3 url authorNickname mediaType) encryptionKey expiry now iv)

/-! ### `main.py`: JSON parsing (model of `json.loads` restricted to the
flat string-valued objects this service produces and consumes) -/

/-- Parse a JSON string body (after the opening quote) up to the closing
quote, undoing `jsonEscape`.  Fuel-based. -/
def parseJString : Nat → List Nat → Option (List Nat × List Nat)
  | 0, _ => none
  | _ + 1, [] => none
  | _ + 1, 34 :: rest => some ([], rest)
  | fuel + 1, 92 :: c :: rest =>
    if c = 34 ∨ c = 92 then
      (parseJString fuel rest).map (fun p => (c :: p.1, p.2))
    else none
  | fuel + 1, c :: rest =>
    (parseJString fuel rest).map (fun p => (c :: p.1, p.2))

/-- Parse the `"key": "value"` pairs of a flat JSON object (after the
opening brace), expecting the exact separators `json.dumps` emits. -/
def parsePairs : Nat → List Nat → Option (List (List Nat × List Nat))
  | 0, _ => none
  | fuel + 1, 34 :: rest =>
    match parseJString fuel rest with
    | none => none
    | some (k, r1) =>
      match r1 with
      | 58 :: 32 :: 34 :: r2 =>
        match parseJString fuel r2 with
        | none => none
        | some (v, r3) =>
          match r3 with
          | [125] => some [(k, v)]
          | 44 :: 32 :: r4 => (parsePairs fuel r4).map (fun ps => (k, v) :: ps)
          | _ => none
      | _ => none
  | _ + 1, _ => none

/-- Model of `json.loads` restricted to flat string-valued JSON objects
(the only document shape `main.py` serializes into tokens); any other
document is a parse failure, which at the `download_endpoint` boundary is
indistinguishable from the `json.JSONDecodeError` / attribute failures
the Python code would hit there. -/
def jsonLoadsFlat (s : List Nat) : Option (List (List Nat × List Nat)) :=
  match s with
  | 123 :: 125 :: rest => if rest = [] then some [] else none
  | 123 :: rest => parsePairs s.length rest
  | _ => none

/-- Python `dict.get` for the dict built by `json.loads` (later duplicate
keys overwrite earlier ones, hence the reversed search). -/
def pyDictGet (obj : List (List Nat × List Nat)) (k : List Nat) :
    Option (List Nat) :=
  (obj.reverse.find? (fun p => p.1 == k)).map Prod.snd

/-- Python truthiness test used by `if not url or not author or ...`:
a missing key (`None`) and an empty string are both falsy. -/
def pyFalsy : Option (List Nat) → Bool
  | none => true
  | some [] => true
  | some (_ :: _) => false

/-! ### `main.py`: the `/download` resolver -/

/-- The successful exit of the `download_endpoint` body: a
`StreamingResponse` described by its media type, percent-encoded filename
(sent in both the `x-filename` and `Content-Disposition` headers) and the
origin URL the stream generator will fetch. -/
structure StreamSpec where
  contentType : String
  encodedFilename : List Nat
  url : List Nat
  deriving DecidableEq

/-- Outcome of one `/download` request's handler phase: either a
streaming response or an `HTTPException` (status, detail). -/
inductive DlResult where
  | stream (contentType : String) (encodedFilename : List Nat) (url : List Nat)
  | err (status : Nat) (detail : String)
  deriving DecidableEq

/-- The `content_type_map` lookup of `main.py` lines 382-386. -/
def contentTypeMap (fileType : List Nat) : Option (String × List Nat) :=
  if fileType = asciiBytes "mp3" then some ("audio/mpeg", asciiBytes "mp3")
  else if fileType = asciiBytes "video" then some ("video/mp4", asciiBytes "mp4")
  else if fileType = asciiBytes "image" then some ("image/jpeg", asciiBytes "jpg")
  else none

/-- The `try` body of `download_endpoint` (`main.py` lines 369-415).  An
`Except.error` carries `str(e)` of the exception leaving the body: the
`ValueError` message from `decrypt`, a parse failure from `json.loads`,
or a deliberately raised `HTTPException` whose `str` is
`f"{status_code}: {detail}"`. -/
def downloadInner (C : BlockCipherModel) (key : List Nat) (now : Nat)
    (data : List Nat) : Except String StreamSpec :=
  match decrypt C data key now with
  | .error m => .error m
  | .ok decryptedData =>
    match jsonLoadsFlat decryptedData with
    | none => .error "Expecting value: line 1 column 1 (char 0)"
    | some parsedData =>
      let url := pyDictGet parsedData (asciiBytes "url")
      let author := pyDictGet parsedData (asciiBytes "author")
      let fileType := pyDictGet parsedData (asciiBytes "type")
      if pyFalsy url || pyFalsy author || pyFalsy fileType then
        .error "400: Invalid decrypted data: missing url, author, or type"
      else
        match contentTypeMap (fileType.getD []) with
        | none => .error "400: Invalid file type specified"
        | some ctExt =>
          .ok ⟨ctExt.1, pyQuote ((author.getD []) ++ [46] ++ ctExt.2),
            url.getD []⟩

/-- `download_endpoint(data)` (`main.py` lines 363-418): the empty-`data`
check precedes the `try`, and the trailing `except Exception` converts
every exception from the body into
`HTTPException(500, f"Error downloading file: {str(e)}")`. -/
def downloadEndpoint (C : BlockCipherModel) (key : List Nat) (now : Nat)
    (data : List Nat) : DlResult :=
  if data = [] then .err 400 "Encrypted data parameter is required"
  else
    match downloadInner C key now data with
    | .ok sp => .stream sp.contentType sp.encodedFilename sp.url
    | .error m => .err 500 ("Error downloading file: " ++ m)

/-- The body of the `stream_file` async generator inside
`download_endpoint` (`main.py` lines 398-405).  It runs only while the
returned `StreamingResponse` is being sent — after the handler and its
`try/except` have finished — so the `HTTPException(502, ...)` it raises
on a non-200 origin status propagates to the streaming machinery
unwrapped.  `chunks` are the origin's 8 KiB chunks on success. -/
def streamFile (originStatus : Nat) (chunks : List (List Nat)) :
    Except (Nat × String) (List (List Nat)) :=
  if originStatus ≠ 200 then
    .error (502, "Failed to download from source: " ++ toString originStatus)
  else .ok chunks

/-! ### `main.py`: temp-file sweep (`cleanup_temp_files`) -/

/-- A top-level entry of `TEMP_DIR` as seen by `os.listdir` /
`os.path.isdir` / `os.path.getmtime`: its path, whether it is a
directory, and its on-disk modification time (seconds). -/
structure TempEntry where
  path : String
  isDir : Bool
  mtime : Int

/-- Lookup in the `file_timestamps` dictionary. -/
def lookupStamp (stamps : List (String × Int)) (p : String) : Option Int :=
  (stamps.find? (fun q => q.1 == p)).map Prod.snd

/-- First pass of `cleanup_temp_files` (`main.py` lines 67-81): for each
directory entry, take the recorded timestamp if tracked, otherwise record
the on-disk mtime; collect the entries strictly older than one hour
(`timedelta(hours=1)` = 3600 s).  Returns (expired paths, updated
`file_timestamps`). -/
def cleanupFirstPass (nowT : Int) :
    List TempEntry → List (String × Int) → List String × List (String × Int)
  | [], stamps => ([], stamps)
  | e :: rest, stamps =>
    if e.isDir then
      let ts := (lookupStamp stamps e.path).getD e.mtime
      let stamps2 := if (lookupStamp stamps e.path).isSome then stamps
        else stamps ++ [(e.path, e.mtime)]
      let r := cleanupFirstPass nowT rest stamps2
      if nowT - ts > 3600 then (e.path :: r.1, r.2) else r
    else
      cleanupFirstPass nowT rest stamps

/-- Second pass of `cleanup_temp_files` (`main.py` lines 83-92):
`shutil.rmtree` each expired path and drop its timestamp entry; a removal
failure (`rmOk p = false`) is caught and logged per item, leaving the
entry in place.  Returns (successfully removed paths, updated
`file_timestamps`). -/
def cleanupSecondPass (rmOk : String → Bool) :
    List String → List (String × Int) → List String × List (String × Int)
  | [], stamps => ([], stamps)
  | p :: rest, stamps =>
    if rmOk p then
      let r := cleanupSecondPass rmOk rest
        (stamps.filter (fun q => ¬(q.1 == p)))
      (p :: r.1, r.2)
    else
      cleanupSecondPass rmOk rest stamps

/-- One run of the `cleanup_temp_files` sweep, with the wall clock
(`datetime.now()`), the directory listing and the `file_timestamps` map
passed explicitly.  Returns the removed paths and the updated map. -/
def cleanupTempFiles (nowT : Int) (entries : List TempEntry)
    (stamps : List (String × Int)) (rmOk : String → Bool) :
    List String × List (String × Int) :=
  let r := cleanupFirstPass nowT entries stamps
  cleanupSecondPass rmOk r.1 r.2

/-- The age the sweep judges an entry by: the recorded timestamp when
tracked, otherwise the on-disk modification time. -/
def effectiveStamp (stamps : List (String × Int)) (p : String) (m : Int) : Int :=
  (lookupStamp stamps p).getD m

/-! ### `main.py`: slideshow command construction (`create_slideshow`) -/

/-- The fixed per-slide duration of `create_slideshow`: each image input
is given `-loop 1 -t 3` and the total video duration is
`len(images) * 3` (`main.py` lines 440-454). -/
def perSlideSeconds : Nat := 3

/-- `create_slideshow(images, audio_path, output_path)` up to the
subprocess hand-off: the constructed FFmpeg argument list and the
`filter_complex` entries.  The actual FFmpeg execution is the external
compositing collaborator. -/
def createSlideshowCmd (images : List String) (audioPath outputPath : String) :
    List String × List String :=
  let filterScale := (List.range images.length).map (fun i =>
    "[" ++ toString i ++
      ":v]scale=w=1080:h=1920:force_original_aspect_ratio=decrease," ++
      "pad=1080:1920:(ow-iw)/2:(oh-ih)/2:color=black,setsar=1[v" ++
      toString i ++ "]")
  let concatInputs :=
    String.join ((List.range images.length).map (fun i =>
      "[v" ++ toString i ++ "]"))
  let filterConcat := concatInputs ++ "concat=n=" ++ toString images.length ++
    ":v=1:a=0[vout]"
  let videoDuration := images.length * perSlideSeconds
  let filterAudio := "[" ++ toString images.length ++ ":a]atrim=0:" ++
    toString videoDuration ++ "[aout]"
  let filterComplex := (filterScale ++ [filterConcat]) ++ [filterAudio]
  let cmd := ["ffmpeg"] ++
    (images.flatMap (fun image => ["-loop", "1", "-t", "3", "-i", image])) ++
    ["-stream_loop", "-1", "-i", audioPath] ++
    ["-filter_complex", String.intercalate ";" filterComplex] ++
    ["-map", "[vout]", "-map", "[aout]", "-pix_fmt", "yuv420p",
      "-preset", "medium", "-c:v", "libx264", "-c:a", "aac",
      "-fps_mode", "cfr", "-strict", "experimental", "-b:a", "192k",
      "-shortest", outputPath]
  (cmd, filterComplex)

/-! ### Claim theorems -/

/-- C1: Round-trip of the token codec — for every payload byte string
that does not contain the delimiter sequence `"_*_"`, every key, every
TTL and every 16-byte IV, decoding the token produced by
`encrypt(payload, key, ttl)` with the same key, at any wall-clock reading
taken before `ttl` seconds have elapsed, returns exactly the original
payload. -/
theorem c1_codec_roundtrip (C : BlockCipherModel) (hC : goodCipher C)
    (payload key : List Nat) (ttl now now2 : Nat) (iv : List Nat)
    (hivlen : iv.length = 16) (hivlt : ∀ x ∈ iv, x < 256)
    (hpayload : ∀ x ∈ payload, x < 256)
    (hnodelim : containsSub delim payload = false)
    (hfresh : now2 < now + ttl * 1000) :
    decrypt C (encrypt C payload key ttl now iv) key now2 =
      Except.ok payload := by
  rw [decrypt_encrypt C hC payload key ttl now now2 iv hivlen hivlt hpayload
    hnodelim, if_neg (by omega)]

theorem c1_codec_roundtrip_witness :
    goodCipher idCipher ∧
    decrypt idCipher
        (encrypt idCipher (asciiBytes "hello world") (asciiBytes "overflow")
          360 1000000 (List.range 16))
        (asciiBytes "overflow") 1005000 =
      Except.ok (asciiBytes "hello world") :=
  ⟨goodCipher_idCipher,
    c1_codec_roundtrip idCipher goodCipher_idCipher (asciiBytes "hello world")
      (asciiBytes "overflow") 360 1000000 1005000 (List.range 16)
      (by decide) (by decide) (by decide) (by decide) (by norm_num)⟩

/-- C2: decoding a token encoded with `ttl = 1` two seconds (2000 ms)
after issuance fails with the expiry-classified error — the distinct
`raise ValueError("Link expired and cannot be decrypted.")` site — and
not with any decode-classified error: the `try` body's outcome is exactly
`DecErr.expired` (for which `isExpiry` is `true`, unlike every other
`DecErr`), and the boundary re-raise carries the expiry message. -/
theorem c2_expiry_classified (C : BlockCipherModel) (hC : goodCipher C)
    (payload key : List Nat) (now : Nat) (iv : List Nat)
    (hivlen : iv.length = 16) (hivlt : ∀ x ∈ iv, x < 256)
    (hpayload : ∀ x ∈ payload, x < 256)
    (hnodelim : containsSub delim payload = false) :
    decryptInner C (encrypt C payload key 1 now iv) key (now + 2000) =
        Except.error DecErr.expired ∧
      DecErr.expired.isExpiry = true ∧
      decrypt C (encrypt C payload key 1 now iv) key (now + 2000) =
        Except.error "Decryption failed: Link expired and cannot be decrypted." := by
  refine ⟨?_, rfl, ?_⟩
  · rw [decryptInner_encrypt C hC payload key 1 now (now + 2000) iv hivlen
      hivlt hpayload hnodelim, if_pos (by omega)]
  · rw [decrypt_encrypt C hC payload key 1 now (now + 2000) iv hivlen hivlt
      hpayload hnodelim, if_pos (by omega)]

theorem c2_expiry_classified_witness :
    goodCipher idCipher ∧
    decryptInner idCipher
        (encrypt idCipher (asciiBytes "hello") (asciiBytes "overflow") 1 5000
          (List.range 16)) (asciiBytes "overflow") 7000 =
      Except.error DecErr.expired :=
  ⟨goodCipher_idCipher,
    (c2_expiry_classified idCipher goodCipher_idCipher (asciiBytes "hello")
      (asciiBytes "overflow") 5000 (List.range 16) (by decide) (by decide)
      (by decide) (by decide)).1⟩

/-- C3 counterexample: the claim asserts decode fails at every current
time `≥ issued_at + ttl * 1000`, but at exactly `issued_at + ttl * 1000`
(issued at 0 ms with `ttl = 1`, decoded at 1000 ms) the guard
`current_time > expiration_time` of `crypto.py` line 76 is false and
decoding succeeds. -/
theorem c3_half_open_counterexample :
    decrypt idCipher
        (encrypt idCipher (asciiBytes "hello") (asciiBytes "overflow") 1 0
          (List.range 16)) (asciiBytes "overflow") 1000 =
      Except.ok (asciiBytes "hello") := by rfl

/-- C3 amended: the validity window is the closed interval
`[issued_at, issued_at + ttl * 1000]` — decoding an intact token
succeeds whenever `current_time ≤ timestamp + ttl * 1000` and fails with
the expiry error whenever `current_time > timestamp + ttl * 1000`. -/
theorem c3_window_closed (C : BlockCipherModel) (hC : goodCipher C)
    (payload key : List Nat) (ttl now now2 : Nat) (iv : List Nat)
    (hivlen : iv.length = 16) (hivlt : ∀ x ∈ iv, x < 256)
    (hpayload : ∀ x ∈ payload, x < 256)
    (hnodelim : containsSub delim payload = false) :
    (now2 ≤ now + ttl * 1000 →
      decrypt C (encrypt C payload key ttl now iv) key now2 =
        Except.ok payload) ∧
    (now2 > now + ttl * 1000 →
      decrypt C (encrypt C payload key ttl now iv) key now2 =
        Except.error "Decryption failed: Link expired and cannot be decrypted.") := by
  constructor
  · intro h
    rw [decrypt_encrypt C hC payload key ttl now now2 iv hivlen hivlt hpayload
      hnodelim, if_neg (by omega)]
  · intro h
    rw [decrypt_encrypt C hC payload key ttl now now2 iv hivlen hivlt hpayload
      hnodelim, if_pos h]

theorem c3_window_closed_witness :
    goodCipher idCipher ∧
    ((1000 ≤ 0 + 1 * 1000 →
      decrypt idCipher
          (encrypt idCipher (asciiBytes "hello") (asciiBytes "overflow") 1 0
            (List.range 16)) (asciiBytes "overflow") 1000 =
        Except.ok (asciiBytes "hello")) ∧
     (1000 > 0 + 1 * 1000 →
      decrypt idCipher
          (encrypt idCipher (asciiBytes "hello") (asciiBytes "overflow") 1 0
            (List.range 16)) (asciiBytes "overflow") 1000 =
        Except.error "Decryption failed: Link expired and cannot be decrypted.")) :=
  ⟨goodCipher_idCipher,
    c3_window_closed idCipher goodCipher_idCipher (asciiBytes "hello")
      (asciiBytes "overflow") 1 0 1000 (List.range 16) (by decide) (by decide)
      (by decide) (by decide)⟩

/-- Key normalization always lands on an AES-accepted length. -/
theorem normalizeKey_length (key : List Nat) :
    (normalizeKey key).length = 16 ∨ (normalizeKey key).length = 24 ∨
      (normalizeKey key).length = 32 := by
  unfold normalizeKey
  by_cases h : key.length = 16 ∨ key.length = 24 ∨ key.length = 32
  · rw [if_pos h]
    exact h
  · rw [if_neg h]
    simp only [List.length_take, padPKCS7_length]
    have h2 := Nat.div_add_mod key.length 16
    omega

/-- C4: for raw keys of length 5, 16, 24, 32 or 40 bytes, the key is
deterministically normalized to an AES-accepted length (16, 24 or 32),
both encode and decode go through without error, and the round-trip with
the same raw key returns the original payload. -/
theorem c4_key_sizing (C : BlockCipherModel) (hC : goodCipher C)
    (payload key : List Nat) (ttl now now2 : Nat) (iv : List Nat)
    (hklen : key.length = 5 ∨ key.length = 16 ∨ key.length = 24 ∨
      key.length = 32 ∨ key.length = 40)
    (hivlen : iv.length = 16) (hivlt : ∀ x ∈ iv, x < 256)
    (hpayload : ∀ x ∈ payload, x < 256)
    (hnodelim : containsSub delim payload = false)
    (hfresh : now2 < now + ttl * 1000) :
    ((normalizeKey key).length = 16 ∨ (normalizeKey key).length = 24 ∨
      (normalizeKey key).length = 32) ∧
    decrypt C (encrypt C payload key ttl now iv) key now2 =
      Except.ok payload := by
  refine ⟨normalizeKey_length key, ?_⟩
  rw [decrypt_encrypt C hC payload key ttl now now2 iv hivlen hivlt hpayload
    hnodelim, if_neg (by omega)]

theorem c4_key_sizing_witness :
    goodCipher idCipher ∧
    (((List.range 5).length = 5 ∨ (List.range 5).length = 16 ∨
      (List.range 5).length = 24 ∨ (List.range 5).length = 32 ∨
      (List.range 5).length = 40) ∧
    (((normalizeKey (List.range 5)).length = 16 ∨
      (normalizeKey (List.range 5)).length = 24 ∨
      (normalizeKey (List.range 5)).length = 32) ∧
      decrypt idCipher
          (encrypt idCipher (asciiBytes "hello") (List.range 5) 360 0
            (List.range 16)) (List.range 5) 1000 =
        Except.ok (asciiBytes "hello"))) :=
  ⟨goodCipher_idCipher, Or.inl (by decide),
    c4_key_sizing idCipher goodCipher_idCipher (asciiBytes "hello")
      (List.range 5) 360 0 1000 (List.range 16) (Or.inl (by decide))
      (by decide) (by decide) (by decide) (by decide) (by norm_num)⟩

/-- C5: decode totality at the boundary — for every input token, key and
wall-clock reading, `decrypt` either returns a payload or fails with the
single normalized error (the `ValueError` re-raised by the trailing
`except Exception`, whose message is `"Decryption failed: "` followed by
the inner exception's message); no raw low-level exception escapes. -/
theorem c5_decode_total (C : BlockCipherModel) (token key : List Nat)
    (now : Nat) :
    (∃ payload, decrypt C token key now = Except.ok payload) ∨
    (∃ e : DecErr, decrypt C token key now =
      Except.error ("Decryption failed: " ++ e.msg)) := by
  unfold decrypt
  cases h : decryptInner C token key now with
  | ok t => exact Or.inl ⟨t, rfl⟩
  | error e => exact Or.inr ⟨e, rfl⟩

set_option maxRecDepth 8000

/-- C6 (code-bug evidence): resolving a token whose payload has all three
fields present and non-empty but media type `"subtitle"` (outside the
fixed `{mp3, video, image}` lookup) does reach the dedicated
`raise HTTPException(400, "Invalid file type specified")` branch, but
that exception is swallowed by the trailing `except Exception` of
`download_endpoint` and re-raised as the generic internal
`HTTPException(500, "Error downloading file: ...")` — so the client never
receives the distinct unsupported-media-kind failure the claim (and spec
scenario B) describes. -/
theorem c6_unsupported_kind_wrapped_as_500 :
    downloadEndpoint idCipher (asciiBytes "overflow") 1000
      (encrypt idCipher
        (jsonDumps3 (asciiBytes "https://example/a.mp4") (asciiBytes "alice")
          (asciiBytes "subtitle"))
        (asciiBytes "overflow") 360 0 (List.range 16)) =
    DlResult.err 500 "Error downloading file: 400: Invalid file type specified" := by
  rfl

/-- C7: issuing a download link for media type `"video"`, source URL
`"https://example/video.mp4"` and attribution `"alice"` produces
`base_url ++ "/download?data=" ++ token`, and decoding that token with
the same key within the TTL yields exactly the serialized JSON object
`{"url": "https://example/video.mp4", "author": "alice", "type": "video"}`,
which parses back to those three fields. -/
theorem c7_issue_link_roundtrip (C : BlockCipherModel) (hC : goodCipher C)
    (key baseUrl : List Nat) (now now2 : Nat) (iv : List Nat)
    (hivlen : iv.length = 16) (hivlt : ∀ x ∈ iv, x < 256)
    (hfresh : now2 < now + 360 * 1000) :
    ∃ tok,
      generateEncryptedDownloadLink C (asciiBytes "https://example/video.mp4")
          (asciiBytes "alice") (asciiBytes "video") key baseUrl 360 now iv =
        some (baseUrl ++ asciiBytes "/download?data=" ++ tok) ∧
      decrypt C tok key now2 =
        Except.ok (jsonDumps3 (asciiBytes "https://example/video.mp4")
          (asciiBytes "alice") (asciiBytes "video")) ∧
      jsonLoadsFlat (jsonDumps3 (asciiBytes "https://example/video.mp4")
          (asciiBytes "alice") (asciiBytes "video")) =
        some [(asciiBytes "url", asciiBytes "https://example/video.mp4"),
          (asciiBytes "author", asciiBytes "alice"),
          (asciiBytes "type", asciiBytes "video")] := by
  refine ⟨encrypt C (jsonDumps3 (asciiBytes "https://example/video.mp4")
    (asciiBytes "alice") (asciiBytes "video")) key 360 now iv, ?_, ?_, by rfl⟩
  · unfold generateEncryptedDownloadLink
    rw [if_neg (by decide)]
  · rw [decrypt_encrypt C hC _ key 360 now now2 iv hivlen hivlt (by decide)
      (by decide), if_neg (by omega)]

theorem c7_issue_link_roundtrip_witness :
    goodCipher idCipher ∧
    (∃ tok,
      generateEncryptedDownloadLink idCipher
          (asciiBytes "https://example/video.mp4") (asciiBytes "alice")
          (asciiBytes "video") (asciiBytes "overflow")
          (asciiBytes "https://d.snaptik.fit") 360 0 (List.range 16) =
        some (asciiBytes "https://d.snaptik.fit" ++
          asciiBytes "/download?data=" ++ tok) ∧
      decrypt idCipher tok (asciiBytes "overflow") 1000 =
        Except.ok (jsonDumps3 (asciiBytes "https://example/video.mp4")
          (asciiBytes "alice") (asciiBytes "video")) ∧
      jsonLoadsFlat (jsonDumps3 (asciiBytes "https://example/video.mp4")
          (asciiBytes "alice") (asciiBytes "video")) =
        some [(asciiBytes "url", asciiBytes "https://example/video.mp4"),
          (asciiBytes "author", asciiBytes "alice"),
          (asciiBytes "type", asciiBytes "video")]) :=
  ⟨goodCipher_idCipher,
    c7_issue_link_roundtrip idCipher goodCipher_idCipher (asciiBytes "overflow")
      (asciiBytes "https://d.snaptik.fit") 0 1000 (List.range 16) (by decide)
      (by decide) (by norm_num)⟩

/-- C10 counterexample: with a well-formed `"video"` token whose origin
answers 404, the handler phase of `/download` returns the streaming
response — not any HTTP 500 — and the `HTTPException(502, ...)` raised
inside the `stream_file` generator during transmission surfaces with its
own status and message, never wrapped into
`"Error downloading file: ..."`.  This refutes the claim that the origin
failure (502) is caught by the trailing handler and surfaces as a 500. -/
theorem c10_streaming_escape_counterexample :
    downloadEndpoint idCipher (asciiBytes "overflow") 1000
      (encrypt idCipher
        (jsonDumps3 (asciiBytes "https://example/a.mp4") (asciiBytes "alice")
          (asciiBytes "video"))
        (asciiBytes "overflow") 360 0 (List.range 16)) =
      DlResult.stream "video/mp4" (asciiBytes "alice.mp4")
        (asciiBytes "https://example/a.mp4") ∧
    streamFile 404 [] =
      Except.error (502, "Failed to download from source: 404") :=
  ⟨by rfl, by rfl⟩

/-- C10 amended: in the handler phase of `/download`, an empty `data`
parameter yields the 400 raised before the `try`, and every exception
raised inside the `try` body — the decode `ValueError`, JSON parse
failures, and the deliberately raised 400s for missing payload fields and
unsupported media type — is caught by the trailing `except Exception` and
surfaces as a single HTTP 500 whose detail begins
`"Error downloading file: "`.  The 502 origin failure is not part of the
handler phase: it is raised inside the stream generator after the handler
has returned (see `streamFile`). -/
theorem c10_handler_error_wrapping (C : BlockCipherModel) (key : List Nat)
    (now : Nat) (data : List Nat) :
    (data = [] → downloadEndpoint C key now data =
      DlResult.err 400 "Encrypted data parameter is required") ∧
    (data ≠ [] → (match downloadEndpoint C key now data with
      | DlResult.err s d =>
        s = 500 ∧ ∃ rest, d = "Error downloading file: " ++ rest
      | DlResult.stream _ _ _ => True)) := by
  constructor
  · intro h
    subst h
    rfl
  · intro h
    unfold downloadEndpoint
    rw [if_neg h]
    cases downloadInner C key now data with
    | ok sp => exact trivial
    | error m => exact ⟨rfl, m, rfl⟩

theorem c10_handler_error_wrapping_witness :
    (([] : List Nat) ≠ [] → (match downloadEndpoint idCipher [] 0 [] with
      | DlResult.err s d =>
        s = 500 ∧ ∃ rest, d = "Error downloading file: " ++ rest
      | DlResult.stream _ _ _ => True)) ∧
    downloadEndpoint idCipher [] 0 [] =
      DlResult.err 400 "Encrypted data parameter is required" :=
  ⟨(c10_handler_error_wrapping idCipher [] 0 []).2,
    (c10_handler_error_wrapping idCipher [] 0 []).1 rfl⟩

/-! ### C9: slideshow durations -/

theorem isInfix_append_right {α : Type} {x y : List α} (z : List α)
    (h : x.IsInfix y) : x.IsInfix (y ++ z) :=
  h.trans ⟨[], z, by simp⟩

theorem mem_flatMap_infix {α β : Type} (f : α → List β) (l : List α) (a : α)
    (h : a ∈ l) : (f a).IsInfix (l.flatMap f) := by
  induction l with
  | nil => simp at h
  | cons x rest ih =>
    rcases List.mem_cons.mp h with rfl | hm
    · exact ⟨[], rest.flatMap f, by simp⟩
    · obtain ⟨s, t, hst⟩ := ih hm
      exact ⟨f x ++ s, t, by rw [List.flatMap_cons, ← hst]; simp⟩

/-- C9: the compositing command built by `create_slideshow` loops every
image input for exactly the fixed per-slide duration of 3 seconds
(`-loop 1 -t 3 -i image`), and its `filter_complex` trims the looping
audio to exactly `images.length * 3` seconds
(`atrim=0:{len(images) * 3}`), so the output's total duration is
`images.length * perSlideSeconds`. -/
theorem c9_slideshow_durations (images : List String)
    (audioPath outputPath : String) :
    perSlideSeconds = 3 ∧
    (∀ image ∈ images,
      List.IsInfix ["-loop", "1", "-t", "3", "-i", image]
        (createSlideshowCmd images audioPath outputPath).1) ∧
    (createSlideshowCmd images audioPath outputPath).2.getLast? =
      some ("[" ++ toString images.length ++ ":a]atrim=0:" ++
        toString (images.length * perSlideSeconds) ++ "[aout]") := by
  refine ⟨rfl, ?_, ?_⟩
  · intro image him
    have hinf : (["-loop", "1", "-t", "3", "-i", image]).IsInfix
        (images.flatMap (fun image => ["-loop", "1", "-t", "3", "-i", image])) :=
      mem_flatMap_infix (fun image => ["-loop", "1", "-t", "3", "-i", image])
        images image him
    have hbase : (["-loop", "1", "-t", "3", "-i", image]).IsInfix
        (["ffmpeg"] ++
          images.flatMap (fun image => ["-loop", "1", "-t", "3", "-i", image])) :=
      hinf.trans ⟨["ffmpeg"], [], by simp⟩
    simp only [createSlideshowCmd]
    exact isInfix_append_right _ (isInfix_append_right _
      (isInfix_append_right _ hbase))
  · simp only [createSlideshowCmd]
    rw [List.getLast?_concat]

theorem c9_slideshow_durations_witness :
    "img0" ∈ ["img0", "img1", "img2"] ∧
    List.IsInfix ["-loop", "1", "-t", "3", "-i", "img0"]
      (createSlideshowCmd ["img0", "img1", "img2"] "audio.mp3" "out.mp4").1 ∧
    (createSlideshowCmd ["img0", "img1", "img2"] "audio.mp3" "out.mp4").2.getLast? =
      some ("[" ++ toString (["img0", "img1", "img2"] : List String).length ++
        ":a]atrim=0:" ++
        toString ((["img0", "img1", "img2"] : List String).length *
          perSlideSeconds) ++ "[aout]") :=
  ⟨by decide,
    (c9_slideshow_durations ["img0", "img1", "img2"] "audio.mp3" "out.mp4").2.1
      "img0" (by decide),
    (c9_slideshow_durations ["img0", "img1", "img2"] "audio.mp3" "out.mp4").2.2⟩

/-! ### C8: sweep correctness -/

theorem find?_stamps_append_ne (stamps : List (String × Int)) (p q : String)
    (m : Int) (h : q ≠ p) :
    (stamps ++ [(q, m)]).find? (fun x => x.1 == p) =
      stamps.find? (fun x => x.1 == p) := by
  induction stamps with
  | nil =>
    have hqp : ((q, m).1 == p) = false := beq_eq_false_iff_ne.mpr h
    simp [List.find?, hqp]
  | cons a rest ih =>
    cases hval : (a.1 == p) with
    | true => simp [List.find?, hval]
    | false => simp [List.find?, hval, ih]

theorem lookupStamp_append_ne (stamps : List (String × Int)) (p q : String)
    (m : Int) (h : q ≠ p) :
    lookupStamp (stamps ++ [(q, m)]) p = lookupStamp stamps p := by
  unfold lookupStamp
  rw [find?_stamps_append_ne stamps p q m h]

theorem lookupStamp_stamps2 (stamps : List (String × Int)) (p q : String)
    (m : Int) (h : q ≠ p) :
    lookupStamp (if (lookupStamp stamps q).isSome then stamps
      else stamps ++ [(q, m)]) p = lookupStamp stamps p := by
  by_cases hc : (lookupStamp stamps q).isSome
  · rw [if_pos hc]
  · rw [if_neg hc, lookupStamp_append_ne stamps p q m h]

theorem effectiveStamp_stamps2 (stamps : List (String × Int)) (p q : String)
    (m m' : Int) (h : q ≠ p) :
    effectiveStamp (if (lookupStamp stamps q).isSome then stamps
      else stamps ++ [(q, m)]) p m' = effectiveStamp stamps p m' := by
  unfold effectiveStamp
  rw [lookupStamp_stamps2 stamps p q m h]

/-- Characterization of the sweep's first pass on distinct directory
entries: it marks exactly those whose effective (recorded-or-mtime) age
is strictly over one hour. -/
theorem cleanupFirstPass_dirs (nowT : Int) :
    ∀ (es : List TempEntry) (stamps : List (String × Int)),
    (∀ e ∈ es, e.isDir = true) →
    es.Pairwise (fun a b => a.path ≠ b.path) →
    (cleanupFirstPass nowT es stamps).1 =
      (es.filter (fun e =>
        decide (nowT - effectiveStamp stamps e.path e.mtime > 3600))).map
        TempEntry.path := by
  intro es
  induction es with
  | nil => intro stamps _ _; rfl
  | cons e rest ih =>
    intro stamps hdir hpw
    have hd : e.isDir = true := hdir e (List.mem_cons_self e rest)
    obtain ⟨hne, hpw'⟩ := List.pairwise_cons.mp hpw
    have hstep : cleanupFirstPass nowT (e :: rest) stamps =
        (if e.isDir then
          (if nowT - (lookupStamp stamps e.path).getD e.mtime > 3600 then
            (e.path :: (cleanupFirstPass nowT rest
              (if (lookupStamp stamps e.path).isSome then stamps
                else stamps ++ [(e.path, e.mtime)])).1,
             (cleanupFirstPass nowT rest
              (if (lookupStamp stamps e.path).isSome then stamps
                else stamps ++ [(e.path, e.mtime)])).2)
          else cleanupFirstPass nowT rest
            (if (lookupStamp stamps e.path).isSome then stamps
              else stamps ++ [(e.path, e.mtime)]))
        else cleanupFirstPass nowT rest stamps) := rfl
    rw [hstep, hd]
    have hrest : (cleanupFirstPass nowT rest
        (if (lookupStamp stamps e.path).isSome then stamps
          else stamps ++ [(e.path, e.mtime)])).1 =
        (rest.filter (fun e' =>
          decide (nowT - effectiveStamp stamps e'.path e'.mtime > 3600))).map
          TempEntry.path := by
      rw [ih _ (fun e' he' => hdir e' (List.mem_cons_of_mem e he')) hpw']
      congr 1
      apply List.filter_congr
      intro e' he'
      rw [effectiveStamp_stamps2 stamps e'.path e.path e.mtime e'.mtime
        (hne e' he')]
    by_cases hexp : nowT - effectiveStamp stamps e.path e.mtime > 3600
    · rw [if_pos rfl]
      have hexp' : nowT - (lookupStamp stamps e.path).getD e.mtime > 3600 := hexp
      rw [if_pos hexp']
      simp only [List.filter_cons, decide_eq_true hexp, if_true, List.map_cons]
      rw [hrest]
    · rw [if_pos rfl]
      have hexp' : ¬(nowT - (lookupStamp stamps e.path).getD e.mtime > 3600) := hexp
      rw [if_neg hexp']
      rw [hrest]
      simp [List.filter_cons, decide_eq_false hexp]

/-- The second pass with no removal failures removes everything it was
handed, in order. -/
theorem cleanupSecondPass_all_ok :
    ∀ (ps : List String) (stamps : List (String × Int)),
    (cleanupSecondPass (fun _ => true) ps stamps).1 = ps := by
  intro ps
  induction ps with
  | nil => intro stamps; rfl
  | cons p rest ih =>
    intro stamps
    show (p :: (cleanupSecondPass (fun _ => true) rest _).1, _).1 = p :: rest
    rw [ih]

/-- C8: given three top-level workspace directories aged 10 minutes,
90 minutes and 200 minutes (judged by the recorded timestamp if tracked,
otherwise the on-disk mtime), one run of `cleanup_temp_files` with its
fixed one-hour retention removes exactly the two entries older than
60 minutes and leaves the 10-minute entry in place. -/
theorem c8_sweep_correct (nowT : Int) (p1 p2 p3 : String) (m1 m2 m3 : Int)
    (stamps : List (String × Int))
    (h12 : p1 ≠ p2) (h13 : p1 ≠ p3) (h23 : p2 ≠ p3)
    (ht1 : nowT - effectiveStamp stamps p1 m1 = 600)
    (ht2 : nowT - effectiveStamp stamps p2 m2 = 5400)
    (ht3 : nowT - effectiveStamp stamps p3 m3 = 12000) :
    (cleanupTempFiles nowT
      [⟨p1, true, m1⟩, ⟨p2, true, m2⟩, ⟨p3, true, m3⟩] stamps
      (fun _ => true)).1 = [p2, p3] ∧
    p1 ∉ (cleanupTempFiles nowT
      [⟨p1, true, m1⟩, ⟨p2, true, m2⟩, ⟨p3, true, m3⟩] stamps
      (fun _ => true)).1 := by
  have hfirst : (cleanupFirstPass nowT
      [⟨p1, true, m1⟩, ⟨p2, true, m2⟩, ⟨p3, true, m3⟩] stamps).1 = [p2, p3] := by
    rw [cleanupFirstPass_dirs nowT _ stamps
      (by intro e he; simp at he; rcases he with rfl | rfl | rfl <;> rfl)
      (by simp [h12, h13, h23])]
    simp only [List.filter_cons]
    rw [decide_eq_false (by omega), decide_eq_true (by omega),
      decide_eq_true (by omega)]
    rfl
  have hmain : (cleanupTempFiles nowT
      [⟨p1, true, m1⟩, ⟨p2, true, m2⟩, ⟨p3, true, m3⟩] stamps
      (fun _ => true)).1 = [p2, p3] := by
    unfold cleanupTempFiles
    simp only []
    rw [show (cleanupFirstPass nowT
      [⟨p1, true, m1⟩, ⟨p2, true, m2⟩, ⟨p3, true, m3⟩] stamps).1 = [p2, p3]
      from hfirst, cleanupSecondPass_all_ok]
  refine ⟨hmain, ?_⟩
  rw [hmain]
  simp [h12, h13]

theorem c8_sweep_correct_witness :
    ((0 : Int) + 12600 - effectiveStamp [] "w1" 12000 = 600 ∧
     (0 : Int) + 12600 - effectiveStamp [] "w2" 7200 = 5400 ∧
     (0 : Int) + 12600 - effectiveStamp [] "w3" 600 = 12000) ∧
    (cleanupTempFiles 12600
      [⟨"w1", true, 12000⟩, ⟨"w2", true, 7200⟩, ⟨"w3", true, 600⟩] []
      (fun _ => true)).1 = ["w2", "w3"] ∧
    "w1" ∉ (cleanupTempFiles 12600
      [⟨"w1", true, 12000⟩, ⟨"w2", true, 7200⟩, ⟨"w3", true, 600⟩] []
      (fun _ => true)).1 :=
  ⟨⟨by decide, by decide, by decide⟩,
    c8_sweep_correct 12600 "w1" "w2" "w3" 12000 7200 600 []
      (by decide) (by decide) (by decide) (by decide) (by decide) (by decide)⟩
